import Mathlib

/-!
Verification of the RC4 stream cipher implementation in `src/main.rs`
(struct `Rc4` with fields `s : [u8; 256]`, `i : u8`, `j : u8`, and the
operations `Rc4::new` (KSA), `Rc4::process` (PRGA, in place) and
`Rc4::apply` (copying wrapper)).

The embedding is shallow: the S-box is a `List Nat` whose entries are byte
values, the `u8` counters are `Nat` reduced mod 256 at every step (Rust's
`wrapping_add` on `u8`), and the panic on an invalid key in `Rc4::new` is
modelled as `Option.none`.  Indexing `s[x]` is `List.getD _ x 0`; a checked
variant using `l[x]?` models the bounds checks Rust performs at runtime.
-/

set_option maxRecDepth 10000

namespace RC4

/-- Swap the entries at positions `a` and `b` of a list, mirroring Rust
`slice::swap`. -/
def listSwap (l : List Nat) (a b : Nat) : List Nat :=
  (l.set a (l.getD b 0)).set b (l.getD a 0)

/-- The RC4 engine state: the 256-entry S-box and the two running indices
`i` and `j` (`u8` in the source, modelled as `Nat` kept below 256). -/
structure Rc4 where
  s : List Nat
  i : Nat
  j : Nat
deriving DecidableEq

/-- One iteration of the KSA loop body in `Rc4::new`:
`j = j.wrapping_add(s[i]).wrapping_add(key_byte); s.swap(i, j as usize)`. -/
def ksaStep (key : List Nat) (sj : List Nat × Nat) (i : Nat) : List Nat × Nat :=
  let keyByte := key.getD (i % key.length) 0
  let j := (sj.2 + sj.1.getD i 0 + keyByte) % 256
  (listSwap sj.1 i j, j)

/-- The S-box produced by the key-scheduling loop of `Rc4::new`: start from
the identity table `s[i] = i` and run the single forward mixing pass. -/
def ksaTable (key : List Nat) : List Nat :=
  ((List.range 256).foldl (ksaStep key) (List.range 256, 0)).1

/-- The KSA exactly as the specification words it: populate `table[n] = n`
for n in 0..256; let `j = 0`; for `i` in 0..256 in order set
`j = (j + table[i] + key[i mod key.length]) mod 256` and swap `table[i]`
with `table[j]`.  Kept separate from `ksaTable` so the two can be compared. -/
def ksaTableSpec (key : List Nat) : List Nat :=
  ((List.range 256).foldl
    (fun acc i =>
      let j := (acc.2 + acc.1.getD i 0 + key.getD (i % key.length) 0) % 256
      (listSwap acc.1 i j, j))
    (List.range 256, 0)).1

/-- `Rc4::new`: keys that are empty or longer than 256 bytes are rejected
(the source panics with "Key length must be between 1 and 256 bytes";
modelled as `none`); otherwise run the KSA and return the engine with both
counters zero. -/
def Rc4.new (key : List Nat) : Option Rc4 :=
  if key.length = 0 ∨ key.length > 256 then none
  else some ⟨ksaTable key, 0, 0⟩

/-- One PRGA step of `Rc4::process`, returning the advanced state and the
keystream byte.  As in the source, `si` and `sj` are read before the swap
and `t` is computed from those two cached values. -/
def prgaNext (st : Rc4) : Rc4 × Nat :=
  let i := (st.i + 1) % 256
  let si := st.s.getD i 0
  let j := (st.j + si) % 256
  let sj := st.s.getD j 0
  let s := listSwap st.s i j
  let t := (si + sj) % 256
  (⟨s, i, j⟩, s.getD t 0)

/-- One PRGA step exactly as the specification words it: after the swap,
`t = (table[indexA] + table[indexB]) mod 256` is computed from the table
values read after the swap, and the keystream byte is `table[t]`. -/
def prgaNextSpec (st : Rc4) : Rc4 × Nat :=
  let i := (st.i + 1) % 256
  let j := (st.j + st.s.getD i 0) % 256
  let s := listSwap st.s i j
  let t := (s.getD i 0 + s.getD j 0) % 256
  (⟨s, i, j⟩, s.getD t 0)

/-- `Rc4::process`: transform a buffer byte by byte, one PRGA step and one
XOR per byte, threading the mutated engine state. -/
def process (st : Rc4) (data : List Nat) : Rc4 × List Nat :=
  match data with
  | [] => (st, [])
  | b :: rest =>
    let stk := prgaNext st
    let r := process stk.1 rest
    (r.1, Nat.xor b stk.2 :: r.2)

/-- The transform built from the specification's per-byte step, for
comparison with `process`. -/
def processSpec (st : Rc4) (data : List Nat) : Rc4 × List Nat :=
  match data with
  | [] => (st, [])
  | b :: rest =>
    let stk := prgaNextSpec st
    let r := processSpec stk.1 rest
    (r.1, Nat.xor b stk.2 :: r.2)

/-- `Rc4::apply`: copy the buffer into a fresh vector and process the copy;
in the pure embedding the copy is implicit. -/
def Rc4.apply (st : Rc4) (data : List Nat) : Rc4 × List Nat :=
  process st data

/-- One PRGA step with every table access bounds-checked, the way Rust
checks `s[i]`, `s[j]`, `s.swap(i, j)` and `s[t]` at runtime: any
out-of-range access is `none`. -/
def prgaNextChecked (st : Rc4) : Option (Rc4 × Nat) :=
  (st.s[(st.i + 1) % 256]?).bind fun si =>
    (st.s[(st.j + si) % 256]?).bind fun sj =>
      ((listSwap st.s ((st.i + 1) % 256) ((st.j + si) % 256))[(si + sj) % 256]?).bind
        fun k =>
          some (⟨listSwap st.s ((st.i + 1) % 256) ((st.j + si) % 256),
            (st.i + 1) % 256, (st.j + si) % 256⟩, k)

/-- `Rc4::process` with every table access bounds-checked. -/
def processChecked (st : Rc4) (data : List Nat) : Option (Rc4 × List Nat) :=
  match data with
  | [] => some (st, [])
  | b :: rest =>
    (prgaNextChecked st).bind fun stk =>
      (processChecked stk.1 rest).bind fun r =>
        some (r.1, Nat.xor b stk.2 :: r.2)

/-- The keystream: the `n` bytes the engine would emit from state `st`,
independent of any data. -/
def keystream (st : Rc4) : Nat → List Nat
  | 0 => []
  | n + 1 => (prgaNext st).2 :: keystream (prgaNext st).1 n

/- ### Basic lemmas about the table operations -/

theorem listSwap_length (l : List Nat) (a b : Nat) :
    (listSwap l a b).length = l.length := by
  simp [listSwap]

theorem getD_set_self (l : List Nat) (n x : Nat) (h : n < l.length) :
    (l.set n x).getD n 0 = x := by
  rw [List.getD_eq_getElem?_getD, List.getElem?_set_eq_of_lt x h]
  rfl

theorem getD_set_ne (l : List Nat) (m n x : Nat) (h : m ≠ n) :
    (l.set m x).getD n 0 = l.getD n 0 := by
  rw [List.getD_eq_getElem?_getD, List.getElem?_set_ne h,
    ← List.getD_eq_getElem?_getD]

theorem getElem?_eq_some_getD (l : List Nat) (n : Nat) (h : n < l.length) :
    l[n]? = some (l.getD n 0) := by
  rw [List.getD_eq_getElem?_getD, List.getElem?_eq_getElem h]
  rfl

theorem set_perm_cons :
    ∀ (t : List Nat) (k x : Nat), k < t.length →
      (t.getD k 0 :: t.set k x).Perm (x :: t)
  | [], k, _, h => absurd h (by simp)
  | a :: t, 0, x, _ => by
    simpa using List.Perm.swap x a t
  | a :: t, k + 1, x, h => by
    have ih := set_perm_cons t k x (by simpa using h)
    simp only [List.getD_cons_succ, List.set_cons_succ]
    exact (List.Perm.swap a (t.getD k 0) (t.set k x)).trans
      ((ih.cons a).trans (List.Perm.swap x a t))

theorem listSwap_perm :
    ∀ (l : List Nat) (a b : Nat), a < l.length → b < l.length →
      (listSwap l a b).Perm l
  | [], _, _, ha, _ => absurd ha (by simp)
  | h :: t, 0, 0, _, _ => by
    simp [listSwap]
  | h :: t, 0, b + 1, _, hb => by
    simp only [listSwap, List.getD_cons_succ, List.getD_cons_zero,
      List.set_cons_succ, List.set_cons_zero]
    exact set_perm_cons t b h (by simpa using hb)
  | h :: t, a + 1, 0, ha, _ => by
    simp only [listSwap, List.getD_cons_succ, List.getD_cons_zero,
      List.set_cons_succ, List.set_cons_zero]
    exact set_perm_cons t a h (by simpa using ha)
  | h :: t, a + 1, b + 1, ha, hb => by
    simp only [listSwap, List.getD_cons_succ, List.set_cons_succ]
    exact (listSwap_perm t a b (by simpa using ha) (by simpa using hb)).cons h

/- ### The KSA and PRGA preserve the permutation invariant -/

theorem foldl_ksaStep_perm (key : List Nat) :
    ∀ (l : List Nat) (acc : List Nat × Nat),
      (∀ x ∈ l, x < 256) → acc.1.Perm (List.range 256) →
      ((l.foldl (ksaStep key) acc).1).Perm (List.range 256)
  | [], _, _, hacc => hacc
  | i :: l, acc, hl, hacc => by
    have hlen : acc.1.length = 256 := by simpa using hacc.length_eq
    have hi : i < acc.1.length := by rw [hlen]; exact hl i (by simp)
    have hj : (acc.2 + acc.1.getD i 0 + key.getD (i % key.length) 0) % 256
        < acc.1.length := by
      rw [hlen]; exact Nat.mod_lt _ (by norm_num)
    have hstep : (ksaStep key acc i).1.Perm (List.range 256) :=
      (listSwap_perm acc.1 i _ hi hj).trans hacc
    exact foldl_ksaStep_perm key l (ksaStep key acc i)
      (fun x hx => hl x (by simp [hx])) hstep

theorem ksaTable_perm (key : List Nat) : (ksaTable key).Perm (List.range 256) :=
  foldl_ksaStep_perm key (List.range 256) (List.range 256, 0)
    (fun _ hx => List.mem_range.mp hx) (List.Perm.refl _)

theorem prgaNext_s_length (st : Rc4) :
    (prgaNext st).1.s.length = st.s.length := by
  simp [prgaNext, listSwap_length]

theorem prgaNext_s_perm (st : Rc4) (h : st.s.Perm (List.range 256)) :
    (prgaNext st).1.s.Perm (List.range 256) := by
  have hlen : st.s.length = 256 := by simpa using h.length_eq
  have h1 : (st.i + 1) % 256 < st.s.length := by
    rw [hlen]; exact Nat.mod_lt _ (by norm_num)
  have h2 : (st.j + st.s.getD ((st.i + 1) % 256) 0) % 256 < st.s.length := by
    rw [hlen]; exact Nat.mod_lt _ (by norm_num)
  exact (listSwap_perm st.s _ _ h1 h2).trans h

theorem process_s_perm (st : Rc4) (d : List Nat)
    (h : st.s.Perm (List.range 256)) :
    (process st d).1.s.Perm (List.range 256) := by
  induction d generalizing st with
  | nil => simpa [process] using h
  | cons b rest ih => simpa [process] using ih _ (prgaNext_s_perm st h)

/- ### Length, concatenation, involution, keystream -/

theorem process_snd_length (st : Rc4) (d : List Nat) :
    (process st d).2.length = d.length := by
  induction d generalizing st with
  | nil => rfl
  | cons b rest ih => simp [process, ih]

theorem process_append (st : Rc4) (A B : List Nat) :
    process st (A ++ B) =
      ((process (process st A).1 B).1,
        (process st A).2 ++ (process (process st A).1 B).2) := by
  induction A generalizing st with
  | nil => simp [process]
  | cons a A ih => simp [process, ih]

theorem xor_cancel (b k : Nat) : Nat.xor (Nat.xor b k) k = b :=
  Nat.xor_cancel_right k b

theorem xor_extract (b k : Nat) : Nat.xor (Nat.xor b k) b = k := by
  show b ^^^ k ^^^ b = k
  rw [Nat.xor_comm b k]
  exact Nat.xor_cancel_right b k

theorem process_involution (st : Rc4) (d : List Nat) :
    process st (process st d).2 = ((process st d).1, d) := by
  induction d generalizing st with
  | nil => rfl
  | cons b rest ih => simp [process, ih, xor_cancel]

theorem process_keystream (st : Rc4) (d : List Nat) :
    List.zipWith Nat.xor (process st d).2 d = keystream st d.length := by
  induction d generalizing st with
  | nil => rfl
  | cons b rest ih => simp [process, keystream, ih, xor_extract]

theorem process_fst_length_eq :
    ∀ (st : Rc4) (d1 d2 : List Nat), d1.length = d2.length →
      (process st d1).1 = (process st d2).1
  | _, [], [], _ => rfl
  | st, a :: d1, b :: d2, h => by
    simpa [process] using
      process_fst_length_eq (prgaNext st).1 d1 d2 (by simpa using h)
  | _, [], _ :: _, h => absurd h (by simp)
  | _, _ :: _, [], h => absurd h (by simp)

/- ### The bounds-checked PRGA never fails on a 256-entry table -/

theorem prgaNextChecked_eq (st : Rc4) (h : st.s.length = 256) :
    prgaNextChecked st = some (prgaNext st) := by
  have h1 : (st.i + 1) % 256 < st.s.length := by
    rw [h]; exact Nat.mod_lt _ (by norm_num)
  have h2 : (st.j + st.s.getD ((st.i + 1) % 256) 0) % 256 < st.s.length := by
    rw [h]; exact Nat.mod_lt _ (by norm_num)
  have h3 : (st.s.getD ((st.i + 1) % 256) 0 +
        st.s.getD ((st.j + st.s.getD ((st.i + 1) % 256) 0) % 256) 0) % 256
      < (listSwap st.s ((st.i + 1) % 256)
          ((st.j + st.s.getD ((st.i + 1) % 256) 0) % 256)).length := by
    rw [listSwap_length, h]; exact Nat.mod_lt _ (by norm_num)
  rw [prgaNextChecked, getElem?_eq_some_getD _ _ h1]
  rw [Option.some_bind, getElem?_eq_some_getD _ _ h2]
  rw [Option.some_bind, getElem?_eq_some_getD _ _ h3]
  rw [Option.some_bind]
  rfl

theorem processChecked_eq (st : Rc4) (d : List Nat) (h : st.s.length = 256) :
    processChecked st d = some (process st d) := by
  induction d generalizing st with
  | nil => rfl
  | cons b rest ih =>
    have hnext : (prgaNext st).1.s.length = 256 := by
      rw [prgaNext_s_length]; exact h
    simp [processChecked, process, prgaNextChecked_eq st h, ih _ hnext]

/- ### The implementation's PRGA step equals the specification's -/

theorem swap_getD_sum (l : List Nat) (a b : Nat)
    (ha : a < l.length) (hb : b < l.length) :
    (listSwap l a b).getD a 0 + (listSwap l a b).getD b 0 =
      l.getD a 0 + l.getD b 0 := by
  have hb2 : b < (l.set a (l.getD b 0)).length := by simpa using hb
  unfold listSwap
  rw [getD_set_self _ _ _ hb2]
  by_cases hab : a = b
  · subst hab
    rw [getD_set_self _ _ _ hb2]
  · rw [getD_set_ne _ _ _ _ (fun e => hab e.symm),
      getD_set_self _ _ _ ha, Nat.add_comm]

theorem prgaNextSpec_eq (st : Rc4) (h : st.s.length = 256) :
    prgaNextSpec st = prgaNext st := by
  have h1 : (st.i + 1) % 256 < st.s.length := by
    rw [h]; exact Nat.mod_lt _ (by norm_num)
  have h2 : (st.j + st.s.getD ((st.i + 1) % 256) 0) % 256 < st.s.length := by
    rw [h]; exact Nat.mod_lt _ (by norm_num)
  simp only [prgaNextSpec, prgaNext]
  rw [swap_getD_sum st.s _ _ h1 h2]

theorem processSpec_eq (st : Rc4) (d : List Nat) (h : st.s.length = 256) :
    processSpec st d = process st d := by
  induction d generalizing st with
  | nil => rfl
  | cons b rest ih =>
    have hnext : (prgaNext st).1.s.length = 256 := by
      rw [prgaNext_s_length]; exact h
    simp [processSpec, process, prgaNextSpec_eq st h, ih _ hnext]

theorem ksaTableSpec_eq (key : List Nat) : ksaTableSpec key = ksaTable key := rfl

theorem new_some_elim (key : List Nat) (e : Rc4) (h : Rc4.new key = some e) :
    e = ⟨ksaTable key, 0, 0⟩ := by
  unfold Rc4.new at h
  by_cases hc : key.length = 0 ∨ key.length > 256
  · rw [if_pos hc] at h; cases h
  · rw [if_neg hc] at h; exact (Option.some.inj h).symm

/- ### The claims -/

set_option maxHeartbeats 4000000 in
/-- C1: for key "Key" (bytes 75 101 121) and plaintext "Plaintext" a fresh
engine produces exactly BB F3 16 E8 D9 40 AF 0A D3, and for key "Wiki" and
plaintext "pedia" exactly 10 21 BF 04 20. -/
theorem claim1_reference_vectors :
    Option.map (fun e => (process e [80, 108, 97, 105, 110, 116, 101, 120, 116]).2)
        (Rc4.new [75, 101, 121]) =
      some [0xBB, 0xF3, 0x16, 0xE8, 0xD9, 0x40, 0xAF, 0x0A, 0xD3] ∧
    Option.map (fun e => (process e [112, 101, 100, 105, 97]).2)
        (Rc4.new [87, 105, 107, 105]) =
      some [0x10, 0x21, 0xBF, 0x04, 0x20] :=
  ⟨by decide, by decide⟩

attribute [irreducible] ksaTable ksaTableSpec

/-- C2: for every valid key (length 1..=256) and every buffer P, encrypting
with a fresh engine and decrypting with a second, independently fresh engine
from the same key returns exactly P. -/
theorem claim2_involution_fresh_engines (key P : List Nat)
    (h1 : 1 ≤ key.length) (h2 : key.length ≤ 256) :
    Option.map (fun e => (process e (process e P).2).2) (Rc4.new key) =
      some P := by
  have hnew : Rc4.new key = some ⟨ksaTable key, 0, 0⟩ := by
    unfold Rc4.new
    rw [if_neg (by omega)]
  rw [hnew]
  simp [process_involution]

theorem claim2_witness :
    Option.map (fun e => (process e (process e [1, 2, 3]).2).2)
        (Rc4.new [75, 101, 121]) = some [1, 2, 3] :=
  claim2_involution_fresh_engines [75, 101, 121] [1, 2, 3]
    (by decide) (by decide)

/-- C3: on a 256-entry table the per-byte step of the implementation (which
computes t from the two table values read before the swap) coincides with
the specification's five-step PRGA (which computes t from the table values
after the swap), both for a single step and for a whole buffer. -/
theorem claim3_prga_step_refinement (st : Rc4) (h : st.s.length = 256) :
    prgaNextSpec st = prgaNext st ∧
      ∀ d, processSpec st d = process st d :=
  ⟨prgaNextSpec_eq st h, fun d => processSpec_eq st d h⟩

theorem claim3_witness :
    processSpec ⟨List.range 256, 0, 0⟩ [10, 20] =
      process ⟨List.range 256, 0, 0⟩ [10, 20] :=
  (claim3_prga_step_refinement ⟨List.range 256, 0, 0⟩ (by simp)).2 [10, 20]

/-- C4: every engine produced by initialization carries exactly the table of
the specification's key-scheduling pass, has both indices zero, and its
table is a permutation of 0..255. -/
theorem claim4_ksa_matches_spec (key : List Nat) (e : Rc4)
    (h : Rc4.new key = some e) :
    e.s = ksaTableSpec key ∧ e.i = 0 ∧ e.j = 0 ∧
      e.s.Perm (List.range 256) := by
  have he := new_some_elim key e h
  subst he
  exact ⟨(ksaTableSpec_eq key).symm, rfl, rfl, ksaTable_perm key⟩

theorem claim4_witness :
    (Rc4.mk (ksaTable [0]) 0 0).s = ksaTableSpec [0] ∧
      (Rc4.mk (ksaTable [0]) 0 0).i = 0 ∧ (Rc4.mk (ksaTable [0]) 0 0).j = 0 ∧
      (Rc4.mk (ksaTable [0]) 0 0).s.Perm (List.range 256) :=
  claim4_ksa_matches_spec [0] ⟨ksaTable [0], 0, 0⟩ rfl

/-- C5: initialization succeeds exactly for key lengths 1..=256; the empty
key and a 257-byte key yield no engine, while lengths 1 and 256 succeed. -/
theorem claim5_key_length_validation :
    (∀ key : List Nat,
        (Rc4.new key).isSome = true ↔ 1 ≤ key.length ∧ key.length ≤ 256) ∧
      Rc4.new [] = none ∧ Rc4.new (List.replicate 257 0) = none ∧
      (Rc4.new (List.replicate 1 0)).isSome = true ∧
      (Rc4.new (List.replicate 256 0)).isSome = true := by
  refine ⟨fun key => ?_, rfl, rfl, rfl, rfl⟩
  unfold Rc4.new
  by_cases hc : key.length = 0 ∨ key.length > 256
  · rw [if_pos hc]
    simp only [Option.isSome_none, Bool.false_eq_true, false_iff]
    omega
  · rw [if_neg hc]
    simp only [Option.isSome_some, true_iff]
    omega

/-- C6: the table is a permutation of 0..255 at every observable point:
immediately after initialization, after each single PRGA step, and after
processing any buffer. -/
theorem claim6_permutation_invariant :
    (∀ key e, Rc4.new key = some e → e.s.Perm (List.range 256)) ∧
      (∀ st : Rc4, st.s.Perm (List.range 256) →
        (prgaNext st).1.s.Perm (List.range 256) ∧
          ∀ d, (process st d).1.s.Perm (List.range 256)) := by
  constructor
  · intro key e h
    have he := new_some_elim key e h
    subst he
    exact ksaTable_perm key
  · intro st h
    exact ⟨prgaNext_s_perm st h, fun d => process_s_perm st d h⟩

theorem claim6_witness :
    (process ⟨List.range 256, 0, 0⟩ [1, 2, 3]).1.s.Perm (List.range 256) :=
  (claim6_permutation_invariant.2 ⟨List.range 256, 0, 0⟩
    (List.Perm.refl _)).2 [1, 2, 3]

/-- C7: with a 256-entry table, the bounds-checked transform never fails and
agrees with the total one, the output always has the input's length (for
`process` and for the copying wrapper `apply`), and empty input yields
empty output. -/
theorem claim7_transform_total_safety (st : Rc4) (d : List Nat)
    (h : st.s.length = 256) :
    processChecked st d = some (process st d) ∧
      (process st d).2.length = d.length ∧
      (Rc4.apply st d).2.length = d.length ∧
      (process st []).2 = [] ∧ (Rc4.apply st []).2 = [] :=
  ⟨processChecked_eq st d h, process_snd_length st d, process_snd_length st d,
    rfl, rfl⟩

theorem claim7_witness :
    processChecked ⟨List.range 256, 0, 0⟩ [7, 8] =
        some (process ⟨List.range 256, 0, 0⟩ [7, 8]) ∧
      (process ⟨List.range 256, 0, 0⟩ [7, 8]).2.length = [7, 8].length ∧
      (Rc4.apply ⟨List.range 256, 0, 0⟩ [7, 8]).2.length = [7, 8].length ∧
      (process ⟨List.range 256, 0, 0⟩ []).2 = [] ∧
      (Rc4.apply ⟨List.range 256, 0, 0⟩ []).2 = [] :=
  claim7_transform_total_safety ⟨List.range 256, 0, 0⟩ [7, 8] (by simp)

/-- C8: processing a buffer split as A ++ B with two calls on the same
engine yields the same combined output and the same final state as one call
on the whole buffer (keystream continuity across calls). -/
theorem claim8_keystream_continuity (st : Rc4) (A B : List Nat) :
    process st (A ++ B) =
      ((process (process st A).1 B).1,
        (process st A).2 ++ (process (process st A).1 B).2) :=
  process_append st A B

/-- C9: two engines initialized from the same key are equal, and on buffers
of equal length they end in identical states and generate identical
keystreams (output XOR input agrees byte for byte), independently of the
buffers' contents. -/
theorem claim9_determinism_data_independence (key : List Nat) (e1 e2 : Rc4)
    (d1 d2 : List Nat) (h1 : Rc4.new key = some e1)
    (h2 : Rc4.new key = some e2) (hlen : d1.length = d2.length) :
    e1 = e2 ∧ (process e1 d1).1 = (process e2 d2).1 ∧
      List.zipWith Nat.xor (process e1 d1).2 d1 =
        List.zipWith Nat.xor (process e2 d2).2 d2 := by
  have he : e1 = e2 := by
    rw [new_some_elim key e1 h1, new_some_elim key e2 h2]
  subst he
  refine ⟨rfl, process_fst_length_eq e1 d1 d2 hlen, ?_⟩
  rw [process_keystream, process_keystream, hlen]

theorem claim9_witness :
    Rc4.mk (ksaTable [5]) 0 0 = Rc4.mk (ksaTable [5]) 0 0 ∧
      (process (Rc4.mk (ksaTable [5]) 0 0) [0, 0]).1 =
        (process (Rc4.mk (ksaTable [5]) 0 0) [9, 9]).1 ∧
      List.zipWith Nat.xor (process (Rc4.mk (ksaTable [5]) 0 0) [0, 0]).2 [0, 0] =
        List.zipWith Nat.xor (process (Rc4.mk (ksaTable [5]) 0 0) [9, 9]).2 [9, 9] :=
  claim9_determinism_data_independence [5] _ _ [0, 0] [9, 9] rfl rfl rfl

/-- C10: from any engine state whatsoever, transforming a buffer and then
transforming the result from the identical state returns the original
buffer, and both runs end in the same state: mid-stream ciphertext is
decrypted by replaying the keystream from the same position. -/
theorem claim10_involution_any_state (st : Rc4) (d : List Nat) :
    process st (process st d).2 = ((process st d).1, d) :=
  process_involution st d

end RC4
